import Mathlib

/-!
Verification of the spark-processor repository core against its specification.

The development shallowly embeds the query builder of `src/employee_queries.py`,
the aggregate reports of `src/analysis.py`, and the relational sink used by
`main.py` and the test suite.  Queries are modelled by their relational
semantics over an in-memory table (a list of employee records); the compiled
SQL text and its bound-parameter mapping are modelled as a `String` together
with an association list, built exactly the way the Python code builds them.
-/

/-- An employee record, the fixed row schema of the `employees` table
(see the data model and `bin/generate_test_data.py`). -/
structure Employee where
  id : Int
  name : String
  age : Int
  city : String
  department : String
  level : String
  occupation : String
  salary : Int
deriving DecidableEq

namespace EmployeeQueries

/-- A value of a criteria entry in `EmployeeQueries.query_by_criteria`: the
Python code distinguishes `list`/`tuple` values (membership clause) from
scalar values (equality clause). -/
inductive CritValue (α : Type) where
  | scalar (v : α)
  | seq (vs : List α)

/-- Parameter name the source generates for a scalar criteria entry:
the Python f-string `val_{column}`. -/
def scalarKey (column : String) : String := "val_" ++ column

/-- Parameter name the source generates for element `i` of a sequence
criteria entry: the Python f-string `val_{column}_{i}`. -/
def seqKey (column : String) (i : Nat) : String :=
  "val_" ++ column ++ "_" ++ toString i

/-- Membership condition the source emits for a sequence entry:
`{column} IN (:val_{column}_0,...)`, joining the placeholder list with commas. -/
def inCondition (column : String) (n : Nat) : String :=
  column ++ " IN (" ++
    String.intercalate "," ((List.range n).map (fun i => ":" ++ seqKey column i)) ++ ")"

/-- Equality condition the source emits for a scalar entry:
`{column} = :val_{column}`. -/
def eqCondition (column : String) : String :=
  column ++ " = :" ++ scalarKey column

/-- Python dict assignment `m[k] = v`: replaces the stored value in place when
the key is present, otherwise appends the new binding at the end. -/
def dictSet {α : Type} (m : List (String × α)) (k : String) (v : α) :
    List (String × α) :=
  if k ∈ m.map Prod.fst then m.map (fun p => if p.1 = k then (k, v) else p)
  else m ++ [(k, v)]

/-- The condition string appended to `conditions` for one criteria entry
(the two branches of the loop body of `query_by_criteria`). -/
def entryCondition {α : Type} (entry : String × CritValue α) : String :=
  match entry.2 with
  | .seq vs => inCondition entry.1 vs.length
  | .scalar _ => eqCondition entry.1

/-- The update of the `params` dict performed for one criteria entry:
one binding per sequence element (via `enumerate`), or a single binding
for a scalar. -/
def addParams {α : Type} (m : List (String × α)) (entry : String × CritValue α) :
    List (String × α) :=
  match entry.2 with
  | .seq vs => vs.enum.foldl (fun acc p => dictSet acc (seqKey entry.1 p.1) p.2) m
  | .scalar v => dictSet m (scalarKey entry.1) v

/-- The `conditions` list of `query_by_criteria`: one clause per criteria
entry, in iteration order. -/
def buildConditions {α : Type} (criteria : List (String × CritValue α)) :
    List String :=
  criteria.map entryCondition

/-- The `params` dict of `query_by_criteria`, built by the same loop. -/
def buildParams {α : Type} (criteria : List (String × CritValue α)) :
    List (String × α) :=
  criteria.foldl addParams []

/-- Shallow embedding of `EmployeeQueries.query_by_criteria`
(src/employee_queries.py): compiles a criteria mapping and an optional sort
column into the SQL text handed to `pd.read_sql` together with the bound
parameter mapping.  Criteria are an ordered association list mirroring the
Python dict iteration order; values are abstract (type `α`). -/
def query_by_criteria {α : Type} (criteria : List (String × CritValue α))
    (sort_by : Option String) (ascending : Bool) : String × List (String × α) :=
  let conditions := buildConditions criteria
  let params := buildParams criteria
  let query := "SELECT * FROM employees"
  let query :=
    if conditions.isEmpty then query
    else query ++ " WHERE " ++ String.intercalate " AND " conditions
  let query :=
    match sort_by with
    | some c => query ++ " ORDER BY " ++ c ++ " " ++ (if ascending then "ASC" else "DESC")
    | none => query
  (query, params)

/-- The placeholder names referenced by the condition emitted for one entry
(exactly the `placeholders` list the Python loop computes, without the
leading colon). -/
def entryPlaceholders {α : Type} (entry : String × CritValue α) : List String :=
  match entry.2 with
  | .seq vs => (List.range vs.length).map (seqKey entry.1)
  | .scalar _ => [scalarKey entry.1]

/-- All placeholder names referenced in the compiled WHERE clause, in order
of appearance. -/
def refPlaceholders {α : Type} (criteria : List (String × CritValue α)) :
    List String :=
  (criteria.map entryPlaceholders).flatten

/-- Forgets the user-supplied values of a criteria entry, keeping only its
shape (scalar, or a sequence of a given length). -/
def eraseValues {α : Type} : CritValue α → CritValue Unit
  | .scalar _ => .scalar ()
  | .seq vs => .seq (vs.map fun _ => ())

/-- Relational semantics of the fixed query of
`EmployeeQueries.get_employees_above_salary`:
`SELECT * FROM employees WHERE salary > :threshold ORDER BY salary DESC`
evaluated over a table state. -/
def get_employees_above_salary (threshold : Int) (employees : List Employee) :
    List Employee :=
  List.insertionSort (fun a b => b.salary ≤ a.salary)
    (employees.filter (fun e => threshold < e.salary))

end EmployeeQueries

namespace DataProcessor

/-- Errors surfaced by the sink. -/
inductive WriteError where
  | unsupportedMode (mode : String)
  | indexExists (name : String)
deriving DecidableEq

/-- Splits a row set into consecutive batches of `b` rows (the last batch may
be shorter); with a batch size of `0` everything is submitted at once. -/
def toBatches {α : Type} : Nat → List α → List (List α)
  | _, [] => []
  | 0, l => [l]
  | b + 1, x :: xs =>
      ((x :: xs).take (b + 1)) :: toBatches (b + 1) ((x :: xs).drop (b + 1))
termination_by _ l => l.length
decreasing_by simp [List.length_drop]; omega

/-- Modelled from the spec: `DataProcessor.write_to_database`, the load path of
the RelationalSink.  The class is imported from `src.spark_processor` by
`main.py`, `tests/test_data_processor.py` and `tests/test_performance.py`, but
the file under src only contains the excluded heavyweight-engine variant
(`SparkProcessor`), so the sink itself is missing from the snapshot.  Per the
spec: mode `replace` makes the table content equal exactly to the submitted
rows, `append` adds them after the existing rows, any other mode is rejected
with `UnsupportedMode`; rows are submitted in sequential batches of the given
batch size (default 10,000).  The table state is the ordered list of its rows,
and each batch is appended by one backend write call. -/
def write_to_database {α : Type} (table rows : List α) (mode : String)
    (batchSize : Nat) : Except WriteError (List α) :=
  if mode = "replace" then
    Except.ok ((toBatches batchSize rows).foldl (· ++ ·) [])
  else if mode = "append" then
    Except.ok ((toBatches batchSize rows).foldl (· ++ ·) table)
  else
    Except.error (.unsupportedMode mode)

/-- Modelled from the spec: the columns indexed after a successful load on an
embedded backend. -/
def index_columns : List String := ["department", "level", "salary"]

/-- Modelled from the spec: the backend primitive `CREATE INDEX`, which fails
when an index of the same name already exists. -/
def create_index (indexes : List String) (name : String) :
    Except WriteError (List String) :=
  if name ∈ indexes then Except.error (.indexExists name)
  else Except.ok (indexes ++ [name])

/-- Modelled from the spec: the idempotent create-if-absent form
(`CREATE INDEX IF NOT EXISTS`) used by the sink after a load. -/
def create_index_if_absent (indexes : List String) (name : String) :
    Except WriteError (List String) :=
  if name ∈ indexes then Except.ok indexes
  else create_index indexes name

/-- State of the embedded backend: the rows of the target table and the names
of the existing indexes. -/
structure SinkState (α : Type) where
  rows : List α
  indexes : List String
deriving DecidableEq

/-- Modelled from the spec: a full load against an embedded backend — the
batched, mode-aware write followed by index provisioning in the idempotent
create-if-absent form. -/
def load {α : Type} (st : SinkState α) (rows : List α) (mode : String)
    (batchSize : Nat) : Except WriteError (SinkState α) :=
  match write_to_database st.rows rows mode batchSize with
  | .error e => .error e
  | .ok t =>
    match index_columns.foldlM create_index_if_absent st.indexes with
    | .error e => .error e
    | .ok ix => .ok ⟨t, ix⟩

end DataProcessor

namespace Analysis

/-- One output row of `Analysis.salary_ranges` (src/analysis.py): the band
label with the count and the salary aggregates of its group. -/
structure SalaryRangeRow where
  salary_range : String
  employee_count : Nat
  avg_salary : ℚ
  min_salary : Int
  max_salary : Int
deriving DecidableEq

/-- The CASE expression of `Analysis.salary_ranges`, checked top to bottom
exactly as written in the SQL text. -/
def salaryBand (salary : Int) : String :=
  if salary ≥ 120000 then "Very High (120k+)"
  else if salary ≥ 100000 then "High (100k-120k)"
  else if salary ≥ 80000 then "Medium (80k-100k)"
  else "Entry (Below 80k)"

/-- SQL `MIN` over the salaries of a group (groups are never empty; the
default is irrelevant). -/
def listMin : List Int → Int
  | [] => 0
  | x :: xs => xs.foldl min x

/-- SQL `MAX` over the salaries of a group. -/
def listMax : List Int → Int
  | [] => 0
  | x :: xs => xs.foldl max x

/-- SQL `AVG` over the salaries of a group, as an exact rational. -/
def listAvg (l : List Int) : ℚ :=
  ((l.sum : Int) : ℚ) / (l.length : ℚ)

/-- The aggregate row `GROUP BY salary_range` produces for one band label:
the count and the avg/min/max of salary over the rows of that band. -/
def bandRow (employees : List Employee) (lab : String) : SalaryRangeRow :=
  let sal := (employees.filter (fun e => salaryBand e.salary == lab)).map Employee.salary
  { salary_range := lab
    employee_count := sal.length
    avg_salary := listAvg sal
    min_salary := listMin sal
    max_salary := listMax sal }

/-- Relational semantics of `Analysis.salary_ranges`: group the table by the
band label, aggregate count/avg/min/max of salary per group, and order the
groups by `min_salary` (`ORDER BY min_salary`).  `GROUP BY` returns one row
per label that actually occurs. -/
def salary_ranges (employees : List Employee) : List SalaryRangeRow :=
  List.insertionSort (fun a b => a.min_salary ≤ b.min_salary)
    (((employees.map (fun e => salaryBand e.salary)).dedup).map (bandRow employees))

/-- Byte-wise text comparison on character lists: the BINARY collation the
embedded backend applies when ordering the text columns of this schema. -/
def charListLe : List Char → List Char → Bool
  | [], _ => true
  | _ :: _, [] => false
  | a :: as, b :: bs =>
      if a < b then true else if b < a then false else charListLe as bs

/-- Text comparison on strings, via their character lists. -/
def strLe (a b : String) : Bool := charListLe a.toList b.toList

/-- One output row of `Analysis.department_level_distribution`. -/
structure DeptLevelRow where
  department : String
  level : String
  employee_count : Nat
  avg_salary : ℚ
deriving DecidableEq

/-- The output order of `ORDER BY department, level`: lexicographic on the
pair of text columns. -/
def deptLevelLe (a b : DeptLevelRow) : Bool :=
  if a.department = b.department then strLe a.level b.level
  else strLe a.department b.department

/-- The `GROUP BY department, level` key of a row. -/
def dlKey (e : Employee) : String × String := (e.department, e.level)

/-- The aggregate row produced for one `(department, level)` group:
its count and average salary. -/
def dlGroupRow (employees : List Employee) (k : String × String) : DeptLevelRow :=
  let grp := employees.filter (fun e => dlKey e == k)
  { department := k.1
    level := k.2
    employee_count := grp.length
    avg_salary := listAvg (grp.map Employee.salary) }

/-- Relational semantics of `Analysis.department_level_distribution`: group
the table by the `(department, level)` pair, count and average salary per
group, ordered by `department, level`. -/
def department_level_distribution (employees : List Employee) :
    List DeptLevelRow :=
  List.insertionSort (fun a b => deptLevelLe a b = true)
    (((employees.map dlKey).dedup).map (dlGroupRow employees))

/-- A two-row table whose single department holds a lower-paid level that
precedes a higher-paid one alphabetically. -/
def cexTable : List Employee :=
  [⟨1, "Ann", 30, "X", "Eng", "Junior", "Dev", 100⟩,
   ⟨2, "Bob", 30, "X", "Eng", "Senior", "Dev", 200⟩]

end Analysis

open EmployeeQueries DataProcessor Analysis

theorem toBatches_flatten {α : Type} : ∀ (b : Nat) (l : List α),
    (toBatches (b + 1) l).flatten = l
  | _, [] => by simp [toBatches]
  | b, x :: xs => by
      rw [toBatches]
      rw [List.flatten_cons, toBatches_flatten b ((x :: xs).drop (b + 1))]
      exact List.take_append_drop _ _
termination_by _ l => l.length
decreasing_by simp [List.length_drop]; omega

theorem foldl_append_eq {α : Type} : ∀ (L : List (List α)) (init : List α),
    L.foldl (· ++ ·) init = init ++ L.flatten
  | [], init => by simp
  | l :: L, init => by
      simp only [List.foldl_cons, foldl_append_eq L (init ++ l), List.flatten_cons,
        List.append_assoc]

theorem toBatches_shape {α : Type} : ∀ (b : Nat) (l : List α),
    ∀ batch ∈ toBatches (b + 1) l, batch ≠ [] ∧ batch.length ≤ b + 1
  | _, [], batch, h => by simp [toBatches] at h
  | b, x :: xs, batch, h => by
      rw [toBatches] at h
      rcases List.mem_cons.mp h with rfl | h2
      · exact ⟨by simp, List.length_take_le _ _⟩
      · exact toBatches_shape b ((x :: xs).drop (b + 1)) batch h2
termination_by _ l => l.length
decreasing_by simp [List.length_drop]; omega

theorem write_to_database_replace {α : Type} (table rows : List α) (b : Nat) (hb : 0 < b) :
    write_to_database table rows "replace" b = Except.ok rows := by
  obtain ⟨c, rfl⟩ : ∃ c, b = c + 1 := ⟨b - 1, by omega⟩
  simp [write_to_database, foldl_append_eq, toBatches_flatten]

theorem write_to_database_append {α : Type} (table rows : List α) (b : Nat) (hb : 0 < b) :
    write_to_database table rows "append" b = Except.ok (table ++ rows) := by
  obtain ⟨c, rfl⟩ : ∃ c, b = c + 1 := ⟨b - 1, by omega⟩
  simp [write_to_database, foldl_append_eq, toBatches_flatten]

theorem write_to_database_not_supported {α : Type} (table rows : List α) (mode : String)
    (b : Nat) (h1 : mode ≠ "append") (h2 : mode ≠ "replace") :
    write_to_database table rows mode b = Except.error (WriteError.unsupportedMode mode) := by
  simp [write_to_database, h1, h2]

/-- Claim C3: with mode `replace` the table content after the call equals
exactly the submitted rows; with mode `append` the prior rows stay and the
submitted rows are added after them; appending into an empty table yields the
row set itself, and a subsequent replace load yields only the new row set. -/
theorem claim_C3 {α : Type} (table rows rows2 : List α) (b : Nat) (hb : 0 < b) :
    write_to_database table rows "replace" b = Except.ok rows
    ∧ write_to_database table rows "append" b = Except.ok (table ++ rows)
    ∧ write_to_database [] rows "append" b = Except.ok rows
    ∧ write_to_database rows rows2 "replace" b = Except.ok rows2 := by
  refine ⟨write_to_database_replace table rows b hb, write_to_database_append table rows b hb,
    ?_, write_to_database_replace rows rows2 b hb⟩
  have h3 := write_to_database_append [] rows b hb
  rwa [List.nil_append] at h3

theorem claim_C3_witness :
    write_to_database [1] [2] "replace" 1 = Except.ok [2]
    ∧ write_to_database [1] [2] "append" 1 = Except.ok [1, 2]
    ∧ write_to_database ([] : List Nat) [2] "append" 1 = Except.ok [2]
    ∧ write_to_database [2] [3] "replace" 1 = Except.ok [3] :=
  claim_C3 [1] [2] [3] 1 (by decide)

/-- Claim C4: any mode outside `append`/`replace` is rejected with
`UnsupportedMode` instead of being passed to the backend. -/
theorem claim_C4 {α : Type} (table rows : List α) (mode : String) (b : Nat)
    (h1 : mode ≠ "append") (h2 : mode ≠ "replace") :
    write_to_database table rows mode b = Except.error (WriteError.unsupportedMode mode) :=
  write_to_database_not_supported table rows mode b h1 h2

theorem claim_C4_witness :
    write_to_database [1] [2] "invalid_mode" 10000
      = Except.error (WriteError.unsupportedMode "invalid_mode") :=
  claim_C4 [1] [2] "invalid_mode" 10000 (by decide) (by decide)

/-- Claim C6: the persisted result of a load does not depend on the batch
size; the concatenation of the batches is exactly the input row set, in input
order; and every batch is nonempty with at most `batch size` rows. -/
theorem claim_C6 {α : Type} (table rows : List α) (mode : String) (b1 b2 : Nat)
    (h1 : 0 < b1) (h2 : 0 < b2) :
    write_to_database table rows mode b1 = write_to_database table rows mode b2
    ∧ (toBatches b1 rows).flatten = rows
    ∧ ∀ batch ∈ toBatches b1 rows, batch ≠ [] ∧ batch.length ≤ b1 := by
  obtain ⟨c1, rfl⟩ : ∃ c, b1 = c + 1 := ⟨b1 - 1, by omega⟩
  refine ⟨?_, toBatches_flatten c1 rows, toBatches_shape c1 rows⟩
  by_cases hm1 : mode = "replace"
  · subst hm1
    rw [write_to_database_replace table rows _ h1, write_to_database_replace table rows _ h2]
  by_cases hm2 : mode = "append"
  · subst hm2
    rw [write_to_database_append table rows _ h1, write_to_database_append table rows _ h2]
  rw [write_to_database_not_supported table rows mode _ hm2 hm1,
    write_to_database_not_supported table rows mode _ hm2 hm1]

theorem claim_C6_witness :
    write_to_database [1] [2, 3] "append" 1 = write_to_database [1] [2, 3] "append" 2
    ∧ (toBatches 1 [2, 3]).flatten = [2, 3] :=
  ⟨(claim_C6 [1] [2, 3] "append" 1 2 (by decide) (by decide)).1,
   (claim_C6 [1] [2, 3] "append" 1 2 (by decide) (by decide)).2.1⟩

theorem foldlM_create_if_absent (cols : List String) : ∀ ix : List String,
    ∃ ix2, cols.foldlM create_index_if_absent ix = Except.ok ix2
      ∧ (∀ c ∈ cols, c ∈ ix2) ∧ (∀ c ∈ ix, c ∈ ix2) := by
  induction cols with
  | nil => exact fun ix => ⟨ix, rfl, by simp, fun c hc => hc⟩
  | cons c cols ih =>
      intro ix
      have hstep : create_index_if_absent ix c
          = Except.ok (if c ∈ ix then ix else ix ++ [c]) := by
        by_cases h : c ∈ ix <;> simp [create_index_if_absent, create_index, h]
      obtain ⟨ix2, hfold, hcols, hmono⟩ := ih (if c ∈ ix then ix else ix ++ [c])
      refine ⟨ix2, ?_, ?_, ?_⟩
      · rw [List.foldlM_cons, hstep]
        simpa [Except.bind, bind] using hfold
      · intro d hd
        rcases List.mem_cons.mp hd with rfl | hd2
        · apply hmono
          by_cases h : d ∈ ix <;> simp [h]
        · exact hcols d hd2
      · intro d hd
        apply hmono
        by_cases h : c ∈ ix <;> simp [h, hd]

theorem write_mode_of_ok {α : Type} {table rows : List α} {mode : String} {b : Nat}
    {t : List α} (h : write_to_database table rows mode b = Except.ok t) :
    mode = "replace" ∨ mode = "append" := by
  by_cases h1 : mode = "replace"
  · exact Or.inl h1
  by_cases h2 : mode = "append"
  · exact Or.inr h2
  rw [write_to_database_not_supported table rows mode b h2 h1] at h
  cases h

/-- Claim C7: a successful load on the embedded backend leaves indexes on
`department`, `level` and `salary` present, and because provisioning uses the
idempotent create-if-absent form, loading the same row set again succeeds —
it never fails with an index-already-exists error. -/
theorem claim_C7 {α : Type} (st : SinkState α) (rows : List α) (mode : String) (b : Nat)
    (st1 : SinkState α) (h : load st rows mode b = Except.ok st1) :
    (∀ c ∈ index_columns, c ∈ st1.indexes) ∧ (load st1 rows mode b).isOk = true := by
  unfold load at h
  cases hw : write_to_database st.rows rows mode b with
  | error e => rw [hw] at h; cases h
  | ok t =>
      rw [hw] at h
      obtain ⟨ix2, hfold, hcols, -⟩ := foldlM_create_if_absent index_columns st.indexes
      rw [hfold] at h
      cases h
      refine ⟨hcols, ?_⟩
      have hmode := write_mode_of_ok hw
      obtain ⟨t2, hw2⟩ : ∃ t2, write_to_database t rows mode b = Except.ok t2 := by
        rcases hmode with rfl | rfl
        · exact ⟨(toBatches b rows).foldl (· ++ ·) [], by simp [write_to_database]⟩
        · exact ⟨(toBatches b rows).foldl (· ++ ·) t, by simp [write_to_database]⟩
      obtain ⟨ix3, hfold2, -, -⟩ := foldlM_create_if_absent index_columns ix2
      unfold load
      rw [show (⟨t, ix2⟩ : SinkState α).rows = t from rfl, hw2,
        show (⟨t, ix2⟩ : SinkState α).indexes = ix2 from rfl, hfold2]
      rfl

theorem claim_C7_witness :
    (load (⟨[0], ["department", "level", "salary"]⟩ : SinkState Nat) [0] "append" 1).isOk
      = true :=
  (claim_C7 ⟨[], []⟩ [0] "append" 1 ⟨[0], ["department", "level", "salary"]⟩ (by
    simp +decide [load, write_to_database, toBatches, index_columns, create_index_if_absent,
      create_index, List.foldlM, Except.bind, bind, Except.pure, pure])).2

theorem dictSet_keys {α : Type} (m : List (String × α)) (k : String) (v : α) :
    (dictSet m k v).map Prod.fst
      = if k ∈ m.map Prod.fst then m.map Prod.fst else m.map Prod.fst ++ [k] := by
  unfold dictSet
  split_ifs with h
  · rw [List.map_map]
    apply List.map_congr_left
    intro p _
    by_cases hp : p.1 = k
    · simp [hp]
    · simp [hp]
  · simp

theorem dictSet_keys_nodup {α : Type} {m : List (String × α)} (k : String) (v : α)
    (h : (m.map Prod.fst).Nodup) : ((dictSet m k v).map Prod.fst).Nodup := by
  rw [dictSet_keys]
  split_ifs with hk
  · exact h
  · rw [List.nodup_append]
    exact ⟨h, List.nodup_singleton _, by simpa [List.disjoint_singleton] using hk⟩

theorem mem_dictSet_keys {α : Type} (m : List (String × α)) (k x : String) (v : α) :
    x ∈ (dictSet m k v).map Prod.fst ↔ x ∈ m.map Prod.fst ∨ x = k := by
  rw [dictSet_keys]
  split_ifs with hk
  · constructor
    · exact Or.inl
    · rintro (hx | rfl)
      · exact hx
      · exact hk
  · simp [List.mem_append]

theorem seq_fold_keys_nodup {α : Type} (c : String) :
    ∀ (ps : List (Nat × α)) (m : List (String × α)),
      (m.map Prod.fst).Nodup →
      ((ps.foldl (fun acc p => dictSet acc (seqKey c p.1) p.2) m).map Prod.fst).Nodup
  | [], _, h => h
  | p :: ps, m, h =>
      seq_fold_keys_nodup c ps (dictSet m (seqKey c p.1) p.2) (dictSet_keys_nodup _ _ h)

theorem mem_seq_fold_keys {α : Type} (c : String) (x : String) :
    ∀ (ps : List (Nat × α)) (m : List (String × α)),
      x ∈ (ps.foldl (fun acc p => dictSet acc (seqKey c p.1) p.2) m).map Prod.fst
        ↔ x ∈ m.map Prod.fst ∨ x ∈ ps.map (fun p => seqKey c p.1)
  | [], m => by simp
  | p :: ps, m => by
      rw [List.foldl_cons, mem_seq_fold_keys c x ps (dictSet m (seqKey c p.1) p.2),
        mem_dictSet_keys]
      simp [or_assoc, eq_comm]

theorem addParams_keys_nodup {α : Type} (m : List (String × α)) (e : String × CritValue α)
    (h : (m.map Prod.fst).Nodup) : ((addParams m e).map Prod.fst).Nodup := by
  rcases e with ⟨c, val⟩
  cases val with
  | scalar v => exact dictSet_keys_nodup _ _ h
  | seq vs => exact seq_fold_keys_nodup c vs.enum m h

theorem mem_addParams_keys {α : Type} (m : List (String × α)) (e : String × CritValue α)
    (x : String) :
    x ∈ (addParams m e).map Prod.fst ↔ x ∈ m.map Prod.fst ∨ x ∈ entryPlaceholders e := by
  rcases e with ⟨c, val⟩
  cases val with
  | scalar v =>
      simp only [addParams, entryPlaceholders]
      rw [mem_dictSet_keys]
      simp
  | seq vs =>
      simp only [addParams, entryPlaceholders]
      rw [mem_seq_fold_keys]
      have henum : vs.enum.map (fun p => seqKey c p.1)
          = (List.range vs.length).map (seqKey c) := by
        rw [show (fun p : Nat × α => seqKey c p.1) = (seqKey c) ∘ Prod.fst from rfl,
          ← List.map_map]
        simp
      rw [henum]

theorem buildParams_fold_nodup {α : Type} :
    ∀ (criteria : List (String × CritValue α)) (m : List (String × α)),
      (m.map Prod.fst).Nodup → ((criteria.foldl addParams m).map Prod.fst).Nodup
  | [], _, h => h
  | e :: cs, m, h => buildParams_fold_nodup cs (addParams m e) (addParams_keys_nodup m e h)

theorem mem_buildParams_fold {α : Type} (x : String) :
    ∀ (criteria : List (String × CritValue α)) (m : List (String × α)),
      x ∈ (criteria.foldl addParams m).map Prod.fst
        ↔ x ∈ m.map Prod.fst ∨ x ∈ refPlaceholders criteria
  | [], m => by simp [refPlaceholders]
  | e :: cs, m => by
      rw [List.foldl_cons, mem_buildParams_fold x cs (addParams m e), mem_addParams_keys]
      simp [refPlaceholders, or_assoc]

theorem entryCondition_erase {α : Type} (e : String × CritValue α) :
    entryCondition (e.1, eraseValues e.2) = entryCondition e := by
  rcases e with ⟨c, val⟩
  cases val <;> simp [entryCondition, eraseValues, inCondition]

theorem buildConditions_erase {α : Type} (criteria : List (String × CritValue α)) :
    buildConditions (criteria.map (fun e => (e.1, eraseValues e.2))) = buildConditions criteria := by
  simp only [buildConditions, List.map_map]
  apply List.map_congr_left
  intro e _
  exact entryCondition_erase e

theorem query_text_erase {α : Type} (criteria : List (String × CritValue α))
    (sb : Option String) (asc : Bool) :
    (query_by_criteria (criteria.map (fun e => (e.1, eraseValues e.2))) sb asc).1
      = (query_by_criteria criteria sb asc).1 := by
  simp only [query_by_criteria, buildConditions_erase]

theorem query_snd {α : Type} (criteria : List (String × CritValue α))
    (sb : Option String) (asc : Bool) :
    (query_by_criteria criteria sb asc).2 = buildParams criteria := rfl

/-- Claim C2: for every criteria map and sort specification, the set of
placeholder names referenced in the compiled WHERE clause coincides with the
keys of the bound-parameter mapping, those keys are free of duplicates (each
referenced placeholder has exactly one bound value), and the compiled query
text is unchanged when every user-supplied value is replaced by a unit marker
— so no value is ever interpolated into the template text. -/
theorem claim_C2 {α : Type} (criteria : List (String × CritValue α))
    (sort_by : Option String) (ascending : Bool) :
    ((query_by_criteria criteria sort_by ascending).2.map Prod.fst).Nodup
    ∧ (∀ nm, nm ∈ refPlaceholders criteria
        ↔ nm ∈ (query_by_criteria criteria sort_by ascending).2.map Prod.fst)
    ∧ (query_by_criteria (criteria.map (fun e => (e.1, eraseValues e.2))) sort_by ascending).1
        = (query_by_criteria criteria sort_by ascending).1 := by
  refine ⟨?_, ?_, query_text_erase criteria sort_by ascending⟩
  · rw [query_snd]
    exact buildParams_fold_nodup criteria [] (by simp)
  · intro nm
    rw [query_snd]
    unfold buildParams
    rw [mem_buildParams_fold]
    simp

/-- Claim C1, evaluated at the failing input: `query_by_criteria` performs no
allow-list validation at all — an unknown criteria column and an unknown sort
column are embedded literally into the query text, which is then executed
against the backend; no `UnknownColumn` error exists in the code. -/
theorem claim_C1 :
    query_by_criteria [("invalid_column", CritValue.scalar (0 : Int))]
        (some "also_invalid") false
      = ("SELECT * FROM employees WHERE invalid_column = :val_invalid_column ORDER BY also_invalid DESC",
         [("val_invalid_column", 0)]) := rfl

/-- Claim C5, evaluated at the failing input: an empty sequence value is
neither rejected with `EmptyCriteriaValue` nor compiled to a guaranteed-empty
predicate; the builder emits the malformed membership clause `city IN ()` with
no bound parameters and leaves its behavior to the backend. -/
theorem claim_C5 :
    query_by_criteria [("city", CritValue.seq ([] : List Int))] none true
      = ("SELECT * FROM employees WHERE city IN ()", []) := rfl

theorem length_filter_not {α : Type} (p : α → Bool) (l : List α) :
    (l.filter p).length + (l.filter fun a => !(p a)).length = l.length := by
  induction l with
  | nil => simp
  | cons a t ih =>
      by_cases h : p a <;> simp [List.filter_cons, h] <;> omega

theorem sum_filter_cover {α β : Type} [DecidableEq β] (f : α → β) (bs : List β)
    (l : List α) (hnd : bs.Nodup) (hcov : ∀ a ∈ l, f a ∈ bs) :
    (bs.map fun b => (l.filter fun a => f a == b).length).sum = l.length := by
  induction bs generalizing l with
  | nil =>
      cases l with
      | nil => rfl
      | cons a t => exact absurd (hcov a (by simp)) (by simp)
  | cons b bs ih =>
      have hb : b ∉ bs := (List.nodup_cons.mp hnd).1
      have hnd2 : bs.Nodup := (List.nodup_cons.mp hnd).2
      have hcov2 : ∀ a ∈ l.filter (fun a => !(f a == b)), f a ∈ bs := by
        intro a ha
        rcases List.mem_filter.mp ha with ⟨hal, hba⟩
        have hne : f a ≠ b := by simpa using hba
        rcases List.mem_cons.mp (hcov a hal) with h | h
        · exact absurd h hne
        · exact h
      have hswap : ∀ c ∈ bs,
          (l.filter fun a => f a == c)
            = ((l.filter fun a => !(f a == b)).filter fun a => f a == c) := by
        intro c hc
        rw [List.filter_filter]
        apply List.filter_congr
        intro a _
        by_cases h : f a = c
        · have hcb : c ≠ b := fun e => hb (e ▸ hc)
          simp [h, hcb]
        · simp [h]
      have hmaps : bs.map (fun c => (l.filter fun a => f a == c).length)
          = bs.map (fun c =>
              ((l.filter fun a => !(f a == b)).filter fun a => f a == c).length) :=
        List.map_congr_left (fun c hc => congrArg List.length (hswap c hc))
      calc ((b :: bs).map fun c => (l.filter fun a => f a == c).length).sum
          = (l.filter fun a => f a == b).length
              + (bs.map fun c => (l.filter fun a => f a == c).length).sum := by
            simp
        _ = (l.filter fun a => f a == b).length
              + (l.filter fun a => !(f a == b)).length := by
            rw [hmaps, ih (l.filter fun a => !(f a == b)) hnd2 hcov2]
        _ = l.length := length_filter_not _ l

/-- Claim C8: the salary-band CASE expression assigns every salary to exactly
one of the four bands with boundaries `<80000`, `[80000,100000)`,
`[100000,120000)`, `>=120000`; the counts of the returned bands sum to the
table size (no row omitted or double-counted); and the bands are returned
ordered by minimum salary ascending. -/
theorem claim_C8 (employees : List Employee) :
    (∀ s : Int,
        (salaryBand s = "Entry (Below 80k)" ↔ s < 80000)
      ∧ (salaryBand s = "Medium (80k-100k)" ↔ 80000 ≤ s ∧ s < 100000)
      ∧ (salaryBand s = "High (100k-120k)" ↔ 100000 ≤ s ∧ s < 120000)
      ∧ (salaryBand s = "Very High (120k+)" ↔ 120000 ≤ s))
    ∧ ((salary_ranges employees).map SalaryRangeRow.employee_count).sum = employees.length
    ∧ List.Sorted (fun a b : SalaryRangeRow => a.min_salary ≤ b.min_salary)
        (salary_ranges employees) := by
  refine ⟨?_, ?_, ?_⟩
  · intro s
    unfold salaryBand
    split_ifs with h1 h2 h3
    · exact ⟨iff_of_false (by decide) (by omega), iff_of_false (by decide) (by omega),
        iff_of_false (by decide) (by omega), iff_of_true rfl (by omega)⟩
    · exact ⟨iff_of_false (by decide) (by omega), iff_of_false (by decide) (by omega),
        iff_of_true rfl ⟨by omega, by omega⟩, iff_of_false (by decide) (by omega)⟩
    · exact ⟨iff_of_false (by decide) (by omega), iff_of_true rfl ⟨by omega, by omega⟩,
        iff_of_false (by decide) (by omega), iff_of_false (by decide) (by omega)⟩
    · exact ⟨iff_of_true rfl (by omega), iff_of_false (by decide) (by omega),
        iff_of_false (by decide) (by omega), iff_of_false (by decide) (by omega)⟩
  · have hperm :
        List.Perm (salary_ranges employees)
          (((employees.map (fun e => salaryBand e.salary)).dedup).map (bandRow employees)) :=
      List.perm_insertionSort _ _
    have hsum := ((hperm.map SalaryRangeRow.employee_count)).sum_eq
    rw [hsum, List.map_map]
    have hfn : ∀ lab, (SalaryRangeRow.employee_count ∘ bandRow employees) lab
        = (employees.filter fun e => salaryBand e.salary == lab).length :=
      fun lab => List.length_map _ _
    have heq : ((employees.map (fun e => salaryBand e.salary)).dedup).map
          (SalaryRangeRow.employee_count ∘ bandRow employees)
        = ((employees.map (fun e => salaryBand e.salary)).dedup).map
          (fun lab => (employees.filter fun e => salaryBand e.salary == lab).length) :=
      List.map_congr_left (fun lab _ => hfn lab)
    rw [heq]
    exact sum_filter_cover (fun e => salaryBand e.salary) _ employees
      (List.nodup_dedup _)
      (fun a ha => List.mem_dedup.mpr (List.mem_map_of_mem (fun e => salaryBand e.salary) ha))
  · haveI : IsTotal SalaryRangeRow (fun a b => a.min_salary ≤ b.min_salary) :=
      ⟨fun a b => Int.le_total _ _⟩
    haveI : IsTrans SalaryRangeRow (fun a b => a.min_salary ≤ b.min_salary) :=
      ⟨fun _ _ _ h1 h2 => le_trans h1 h2⟩
    exact List.sorted_insertionSort _ _

theorem charListLe_cons_iff (x y : Char) (xs ys : List Char) :
    charListLe (x :: xs) (y :: ys) = true
      ↔ x < y ∨ (x = y ∧ charListLe xs ys = true) := by
  simp only [charListLe]
  split_ifs with h1 h2
  · simp [h1]
  · apply iff_of_false (by simp)
    rintro (h | ⟨rfl, -⟩)
    · exact h1 h
    · exact lt_irrefl _ h2
  · have hxy : x = y := le_antisymm (not_lt.mp h2) (not_lt.mp h1)
    simp [hxy, lt_irrefl]

theorem charListLe_total : ∀ a b : List Char,
    charListLe a b = true ∨ charListLe b a = true
  | [], _ => Or.inl rfl
  | _ :: _, [] => Or.inr rfl
  | x :: xs, y :: ys => by
      rcases lt_trichotomy x y with h | h | h
      · left
        rw [charListLe_cons_iff]
        exact Or.inl h
      · rcases charListLe_total xs ys with h2 | h2
        · left
          rw [charListLe_cons_iff]
          exact Or.inr ⟨h, h2⟩
        · right
          rw [charListLe_cons_iff]
          exact Or.inr ⟨h.symm, h2⟩
      · right
        rw [charListLe_cons_iff]
        exact Or.inl h

theorem charListLe_trans : ∀ a b c : List Char,
    charListLe a b = true → charListLe b c = true → charListLe a c = true
  | [], _, _, _, _ => rfl
  | _ :: _, [], _, h, _ => by simp [charListLe] at h
  | _ :: _, _ :: _, [], _, h => by simp [charListLe] at h
  | x :: xs, y :: ys, z :: zs, h1, h2 => by
      rw [charListLe_cons_iff] at h1 h2 ⊢
      rcases h1 with h1 | ⟨rfl, h1⟩
      · rcases h2 with h2 | ⟨rfl, h2⟩
        · exact Or.inl (lt_trans h1 h2)
        · exact Or.inl h1
      · rcases h2 with h2 | ⟨rfl, h2⟩
        · exact Or.inl h2
        · exact Or.inr ⟨rfl, charListLe_trans xs ys zs h1 h2⟩

theorem charListLe_antisymm : ∀ a b : List Char,
    charListLe a b = true → charListLe b a = true → a = b
  | [], [], _, _ => rfl
  | [], _ :: _, _, h => by simp [charListLe] at h
  | _ :: _, [], h, _ => by simp [charListLe] at h
  | x :: xs, y :: ys, h1, h2 => by
      rw [charListLe_cons_iff] at h1 h2
      rcases h1 with h1 | ⟨rfl, h1⟩
      · rcases h2 with h2 | ⟨rfl, h2⟩
        · exact absurd (lt_trans h1 h2) (lt_irrefl _)
        · exact absurd h1 (lt_irrefl _)
      · rcases h2 with h2 | ⟨-, h2⟩
        · exact absurd h2 (lt_irrefl _)
        · rw [charListLe_antisymm xs ys h1 h2]

theorem strLe_total (a b : String) : strLe a b = true ∨ strLe b a = true :=
  charListLe_total _ _

theorem strLe_trans {a b c : String} (h1 : strLe a b = true) (h2 : strLe b c = true) :
    strLe a c = true :=
  charListLe_trans _ _ _ h1 h2

theorem strLe_antisymm {a b : String} (h1 : strLe a b = true) (h2 : strLe b a = true) :
    a = b :=
  String.ext (charListLe_antisymm a.toList b.toList h1 h2)

theorem deptLevelLe_total (a b : DeptLevelRow) :
    deptLevelLe a b = true ∨ deptLevelLe b a = true := by
  unfold deptLevelLe
  by_cases h : a.department = b.department
  · simp only [h, if_pos rfl]
    exact strLe_total _ _
  · have h2 : ¬(b.department = a.department) := fun e => h e.symm
    rw [if_neg h, if_neg h2]
    exact strLe_total _ _

theorem deptLevelLe_trans {a b c : DeptLevelRow} (h1 : deptLevelLe a b = true)
    (h2 : deptLevelLe b c = true) : deptLevelLe a c = true := by
  unfold deptLevelLe at *
  by_cases hab : a.department = b.department
  · by_cases hbc : b.department = c.department
    · have hac : a.department = c.department := hab.trans hbc
      rw [if_pos hab] at h1
      rw [if_pos hbc] at h2
      rw [if_pos hac]
      exact strLe_trans h1 h2
    · have hac : ¬ a.department = c.department := fun e => hbc (hab.symm.trans e)
      rw [if_neg hbc] at h2
      rw [if_neg hac, hab]
      exact h2
  · by_cases hbc : b.department = c.department
    · have hac : ¬ a.department = c.department := fun e => hab (e.trans hbc.symm)
      rw [if_neg hab] at h1
      rw [if_neg hac, ← hbc]
      exact h1
    · rw [if_neg hab] at h1
      rw [if_neg hbc] at h2
      by_cases hac : a.department = c.department
      · exfalso
        have h2b : strLe b.department a.department = true := by
          rw [hac]
          exact h2
        exact hab (strLe_antisymm h1 h2b)
      · rw [if_neg hac]
        exact strLe_trans h1 h2

/-- Claim C9, amended: the per-(department, level) report returns one row per
distinct (department, level) pair present in the table, carrying that group's
row count and average salary, and the rows are ordered by department and then
by level (the `ORDER BY department, level` of the source), not by average
salary within a department. -/
theorem claim_C9 (employees : List Employee) :
    List.Sorted (fun a b => deptLevelLe a b = true) (department_level_distribution employees)
    ∧ ((department_level_distribution employees).map (fun r => (r.department, r.level))).Nodup
    ∧ (∀ p : String × String,
        p ∈ (department_level_distribution employees).map (fun r => (r.department, r.level))
          ↔ p ∈ employees.map dlKey)
    ∧ ∀ r ∈ department_level_distribution employees,
        r.employee_count
            = (employees.filter (fun e => dlKey e == (r.department, r.level))).length
          ∧ r.avg_salary
            = listAvg ((employees.filter
                (fun e => dlKey e == (r.department, r.level))).map Employee.salary) := by
  have hperm :
      List.Perm (department_level_distribution employees)
        (((employees.map dlKey).dedup).map (dlGroupRow employees)) :=
    List.perm_insertionSort _ _
  have hkeymap : (((employees.map dlKey).dedup).map (dlGroupRow employees)).map
        (fun r => (r.department, r.level))
      = (employees.map dlKey).dedup := by
    rw [List.map_map]
    have hcomp : ((fun r : DeptLevelRow => (r.department, r.level))
        ∘ dlGroupRow employees) = id := by
      funext k
      rfl
    rw [hcomp, List.map_id]
  refine ⟨?_, ?_, ?_, ?_⟩
  · haveI : IsTotal DeptLevelRow (fun a b => deptLevelLe a b = true) :=
      ⟨deptLevelLe_total⟩
    haveI : IsTrans DeptLevelRow (fun a b => deptLevelLe a b = true) :=
      ⟨fun _ _ _ h1 h2 => deptLevelLe_trans h1 h2⟩
    exact List.sorted_insertionSort _ _
  · refine ((hperm.map (fun r => (r.department, r.level))).nodup_iff).mpr ?_
    rw [hkeymap]
    exact List.nodup_dedup _
  · intro p
    rw [(hperm.map (fun r => (r.department, r.level))).mem_iff, hkeymap, List.mem_dedup]
  · intro r hr
    have hr2 : r ∈ ((employees.map dlKey).dedup).map (dlGroupRow employees) :=
      hperm.mem_iff.mp hr
    obtain ⟨k, hk, rfl⟩ := List.mem_map.mp hr2
    exact ⟨rfl, rfl⟩

/-- Claim C9, counterexample to the ordering as stated: on a table with one
department whose alphabetically first level has the lower average salary, the
report is not ordered by average salary descending within the department. -/
theorem claim_C9_counterexample :
    ¬ List.Pairwise
        (fun a b : DeptLevelRow => a.department < b.department
          ∨ (a.department = b.department ∧ b.avg_salary ≤ a.avg_salary))
        (department_level_distribution cexTable) := by
  intro h
  have hL : department_level_distribution cexTable
      = [⟨"Eng", "Junior", 1, listAvg [100]⟩, ⟨"Eng", "Senior", 1, listAvg [200]⟩] := rfl
  rw [hL] at h
  rcases List.pairwise_cons.mp h with ⟨hrel, -⟩
  rcases hrel _ (List.mem_cons_self _ _) with hlt | ⟨-, hle⟩
  · exact lt_irrefl _ hlt
  · norm_num [listAvg] at hle

theorem claim_C9_witness :
    (⟨"Eng", "Junior", 1, listAvg [100]⟩ : DeptLevelRow).employee_count
        = (cexTable.filter (fun e => dlKey e == ("Eng", "Junior"))).length
      ∧ (⟨"Eng", "Junior", 1, listAvg [100]⟩ : DeptLevelRow).avg_salary
        = listAvg ((cexTable.filter
            (fun e => dlKey e == ("Eng", "Junior"))).map Employee.salary) :=
  (claim_C9 cexTable).2.2.2 ⟨"Eng", "Junior", 1, listAvg [100]⟩
    (by
      rw [show department_level_distribution cexTable
          = [⟨"Eng", "Junior", 1, listAvg [100]⟩, ⟨"Eng", "Senior", 1, listAvg [200]⟩]
          from rfl]
      exact List.mem_cons_self _ _)

/-- Claim C10: the result of `get_employees_above_salary` is sorted by salary
in descending order (the `ORDER BY salary DESC` of its fixed query). -/
theorem claim_C10 (threshold : Int) (employees : List Employee) :
    List.Sorted (fun a b : Employee => b.salary ≤ a.salary)
      (get_employees_above_salary threshold employees) := by
  haveI : IsTotal Employee (fun a b : Employee => b.salary ≤ a.salary) :=
    ⟨fun a b => Or.symm (Int.le_total a.salary b.salary)⟩
  haveI : IsTrans Employee (fun a b : Employee => b.salary ≤ a.salary) :=
    ⟨fun _ _ _ h1 h2 => le_trans h2 h1⟩
  exact List.sorted_insertionSort _ _
